import Mathlib

/-!
Verification of the local-storage post store of `src/index.tsx`.

The program keeps a single collection of posts, JSON-serialized as a string
under the storage key "posts", and exposes three operations through a query
cache: list posts (`usePosts`), get post by id (`usePost`), and add post
(`useAddPost`, with an optimistic update of the cached list).

The embedding works at the level of character lists: the store value is the
string under the "posts" key (`Option String`, `none` = key absent), and
`JSON.parse` / `JSON.stringify` are modelled by an executable JSON parser and
printer over `List Char`.  JSON numbers are kept in their grammatical form
(sign, integer digits, fraction digits, exponent); this is exact for the
integer literals that every reachable store contains.  Strict equality
`===` between a parsed number and an integer id is modelled by exact
rational comparison.
-/

/-- A post record, `type Post = { id: number; title: string; body: string }`.
Ids in the app are random naturals below 100000, but the type allows any
integer. -/
structure Post where
  id : Int
  title : String
  body : String
deriving DecidableEq

/-- JSON whitespace (space, tab, line feed, carriage return). -/
def isWs (c : Char) : Bool :=
  c.toNat = 32 || c.toNat = 9 || c.toNat = 10 || c.toNat = 13

/-- Decimal digit character. -/
def isDigit (c : Char) : Bool :=
  48 ≤ c.toNat && c.toNat ≤ 57

/-- Drop leading JSON whitespace. -/
def skipWs : List Char → List Char
  | [] => []
  | c :: r => if isWs c then skipWs r else c :: r

/-- Split off the longest run of leading decimal digits. -/
def takeDigits : List Char → List Char × List Char
  | [] => ([], [])
  | c :: r =>
    if isDigit c then
      let p := takeDigits r
      (c :: p.1, p.2)
    else ([], c :: r)

/-- Numeric value of a big-endian list of digit characters. -/
def digitsVal (l : List Char) : Nat :=
  l.foldl (fun a c => 10 * a + (c.toNat - 48)) 0

/-- The character for a single decimal digit. -/
def digitChar (d : Nat) : Char :=
  if d = 0 then '0' else if d = 1 then '1' else if d = 2 then '2' else if d = 3 then '3'
  else if d = 4 then '4' else if d = 5 then '5' else if d = 6 then '6' else if d = 7 then '7'
  else if d = 8 then '8' else '9'

/-- Digit extraction, least significant first, onto an accumulator; the
fuel dominates the number of digits. -/
def natToCharsAux : Nat → Nat → List Char → List Char
  | 0, _, acc => acc
  | fuel + 1, n, acc =>
    if n < 10 then digitChar n :: acc
    else natToCharsAux fuel (n / 10) (digitChar (n % 10) :: acc)

/-- Decimal representation of a natural number, most significant digit first
(the form `JSON.stringify` and JS number-to-string conversion produce). -/
def natToChars (n : Nat) : List Char :=
  natToCharsAux (n + 1) n []

/-- `natToCharsAux` computes the reversed decimal digits (via
`Nat.digits`) in front of its accumulator, for any sufficient fuel. -/
theorem natToCharsAux_eq : ∀ (fuel n : Nat) (acc : List Char), n < fuel →
    natToCharsAux fuel n acc
      = (if n = 0 then ['0'] else ((Nat.digits 10 n).map digitChar).reverse) ++ acc := by
  intro fuel
  induction fuel with
  | zero => intro n acc h; omega
  | succ f ih =>
    intro n acc h
    rw [natToCharsAux]
    by_cases h10 : n < 10
    · rw [if_pos h10]
      by_cases h0 : n = 0
      · subst h0; simp [digitChar]
      · rw [if_neg h0]
        have hd : Nat.digits 10 n = [n] := by
          rw [Nat.digits_def' (by norm_num : (1 : ℕ) < 10) (by omega)]
          rw [Nat.mod_eq_of_lt h10, Nat.div_eq_of_lt h10, Nat.digits_zero]
        rw [hd]; simp
    · rw [if_neg h10]
      have hlt : n / 10 < f := by omega
      rw [ih (n / 10) _ hlt, if_neg (by omega : ¬(n / 10 = 0)),
        if_neg (by omega : ¬(n = 0)),
        Nat.digits_def' (by norm_num : (1 : ℕ) < 10) (by omega : 0 < n)]
      simp

/-- The decimal representation in terms of `Nat.digits`. -/
theorem natToChars_eq (n : Nat) :
    natToChars n = if n = 0 then ['0'] else ((Nat.digits 10 n).map digitChar).reverse := by
  rw [natToChars, natToCharsAux_eq (n + 1) n [] (by omega), List.append_nil]

/-- Decimal representation of an integer. -/
def intToChars (i : Int) : List Char :=
  if i < 0 then '-' :: natToChars i.natAbs else natToChars i.natAbs

/-- Value of one hexadecimal digit character, `none` if not a hex digit. -/
def hexVal (c : Char) : Option Nat :=
  if 48 ≤ c.toNat ∧ c.toNat ≤ 57 then some (c.toNat - 48)
  else if 97 ≤ c.toNat ∧ c.toNat ≤ 102 then some (c.toNat - 87)
  else if 65 ≤ c.toNat ∧ c.toNat ≤ 70 then some (c.toNat - 55)
  else none

/-- Value of a four-hex-digit escape `\uXXXX`. -/
def hex4 (a b c d : Char) : Option Nat := do
  let x ← hexVal a
  let y ← hexVal b
  let z ← hexVal c
  let w ← hexVal d
  some (4096 * x + 256 * y + 16 * z + w)

/-- Lower-case hexadecimal digit character, as `JSON.stringify` emits in
`\u00XX` escapes. -/
def hexDigitChar (d : Nat) : Char :=
  if d < 10 then digitChar d
  else if d = 10 then 'a' else if d = 11 then 'b' else if d = 12 then 'c'
  else if d = 13 then 'd' else if d = 14 then 'e' else 'f'

/-- A JSON number in grammatical form: optional minus sign, integer digits,
fraction digits (empty = no fraction part) and optional signed exponent
digits.  `JSON.parse` converts numbers to floating point; keeping the
grammatical form instead is exact on the integer literals that occur in
every reachable store, and comparisons fall back to exact rational
arithmetic elsewhere. -/
structure JNum where
  neg : Bool
  intPart : List Char
  frac : List Char
  expPart : Option (Bool × List Char)
deriving DecidableEq

/-- The grammatical number of an integer, as `JSON.stringify` prints it. -/
def JNum.ofInt (i : Int) : JNum :=
  ⟨decide (i < 0), natToChars i.natAbs, [], none⟩

/-- The exact integer denoted by a grammatical number without fraction or
exponent part, `none` otherwise. -/
def JNum.toInt? (j : JNum) : Option Int :=
  if j.frac = [] ∧ j.expPart = none then
    some (if j.neg then -(digitsVal j.intPart : Int) else (digitsVal j.intPart : Int))
  else none

/-- Exact model of JS `===` between a parsed JSON number and the integer
`i`: the number's exact rational value equals `i`.  (True `JSON.parse`
rounds to binary floating point first; the two agree on every number a
reachable store can contain.) -/
def JNum.eqInt (j : JNum) (i : Int) : Bool :=
  match j.toInt? with
  | some k => k == i
  | none =>
    let m : Int := (if j.neg then -1 else 1) * (digitsVal (j.intPart ++ j.frac) : Int)
    let scale : Int := (j.frac.length : Int)
    let ev : Int := match j.expPart with
      | none => 0
      | some (sg, ds) => (if sg then -1 else 1) * (digitsVal ds : Int)
    let d : Int := ev - scale
    if 0 ≤ d then m * 10 ^ d.toNat == i else i * 10 ^ (-d).toNat == m

mutual
/-- A parsed JSON value, as produced by `JSON.parse`.  Strings are character
lists; object fields keep their textual order. -/
inductive JsonValue : Type where
  | null : JsonValue
  | bool (b : Bool) : JsonValue
  | num (j : JNum) : JsonValue
  | str (s : List Char) : JsonValue
  | arr (xs : JsonList) : JsonValue
  | obj (fs : JsonFields) : JsonValue
inductive JsonList : Type where
  | nil : JsonList
  | cons (v : JsonValue) (vs : JsonList) : JsonList
inductive JsonFields : Type where
  | nil : JsonFields
  | cons (k : List Char) (v : JsonValue) (fs : JsonFields) : JsonFields
end

/-- Escape one character as `JSON.stringify` does inside a string literal:
quote and backslash get a backslash escape, the five control characters with
short forms their short escape, other control characters `\u00XX`, and
everything else stands for itself. -/
def escapeChar (c : Char) : List Char :=
  if c = '"' then ['\\', '"']
  else if c = '\\' then ['\\', '\\']
  else if c = '\x08' then ['\\', 'b']
  else if c = '\t' then ['\\', 't']
  else if c = '\n' then ['\\', 'n']
  else if c = '\x0c' then ['\\', 'f']
  else if c = '\r' then ['\\', 'r']
  else if c.toNat < 32 then ['\\', 'u', '0', '0', hexDigitChar (c.toNat / 16), hexDigitChar (c.toNat % 16)]
  else [c]

/-- Escape a whole string body. -/
def escapeStr : List Char → List Char
  | [] => []
  | c :: r => escapeChar c ++ escapeStr r

/-- Print a grammatical number. -/
def stringifyNum (j : JNum) : List Char :=
  (if j.neg then ['-'] else []) ++ j.intPart
    ++ (if j.frac = [] then [] else '.' :: j.frac)
    ++ (match j.expPart with
        | none => []
        | some (sg, ds) => 'e' :: ((if sg then ['-'] else []) ++ ds))

mutual
/-- `JSON.stringify` of a value: no whitespace, fields in order. -/
def stringifyVal : JsonValue → List Char
  | .num j => stringifyNum j
  | .str s => '"' :: (escapeStr s ++ ['"'])
  | .null => ['n', 'u', 'l', 'l']
  | .arr xs => '[' :: (stringifyElems xs ++ [']'])
  | .bool true => ['t', 'r', 'u', 'e']
  | .obj fs => '{' :: (stringifyFields fs ++ ['}'])
  | .bool false => ['f', 'a', 'l', 's', 'e']
/-- Comma-separated array elements. -/
def stringifyElems : JsonList → List Char
  | .nil => []
  | .cons v .nil => stringifyVal v
  | .cons v (.cons w ws) => stringifyVal v ++ ',' :: stringifyElems (.cons w ws)
/-- Comma-separated object fields, each `"key":value`. -/
def stringifyFields : JsonFields → List Char
  | .nil => []
  | .cons k v .nil => '"' :: (escapeStr k ++ '"' :: ':' :: stringifyVal v)
  | .cons k v (.cons k2 v2 fs) =>
    ('"' :: (escapeStr k ++ '"' :: ':' :: stringifyVal v))
      ++ ',' :: stringifyFields (.cons k2 v2 fs)
end

/-- The translation of a simple escape character (`\"`, `\\`, `\/`, `\b`,
`\f`, `\n`, `\r`, `\t`), `none` for an invalid escape. -/
def escCharOf (e : Char) : Option Char :=
  if e = '"' then some '"'
  else if e = '\\' then some '\\'
  else if e = '/' then some '/'
  else if e = 'b' then some '\x08'
  else if e = 'f' then some '\x0c'
  else if e = 'n' then some '\n'
  else if e = 'r' then some '\r'
  else if e = 't' then some '\t'
  else none

/-- Parse the body of a JSON string literal (the opening quote already
consumed) up to and including the closing quote: returns the decoded
characters and the remaining input.  `\uXXXX` escapes combine a high
surrogate followed by a low surrogate into one scalar value, as a JS string
of the two code units denotes; an unpaired surrogate falls back through
`Char.ofNat`.  Every step consumes at least one input character, so the
fuel `parseStr` supplies is always sufficient. -/
def parseStrAux : Nat → List Char → Option (List Char × List Char)
  | 0, _ => none
  | _, [] => none
  | fuel + 1, c :: r =>
    if c = '"' then some ([], r)
    else if c = '\\' then
      match r with
      | [] => none
      | e :: r2 =>
        if e = 'u' then
          match r2 with
          | a :: b :: c2 :: d :: r3 =>
            match hex4 a b c2 d with
            | none => none
            | some n =>
              if 55296 ≤ n ∧ n < 56320 then
                match r3 with
                | x :: y :: a2 :: b2 :: c3 :: d2 :: r4 =>
                  if x = '\\' ∧ y = 'u' then
                    match hex4 a2 b2 c3 d2 with
                    | some m =>
                      if 56320 ≤ m ∧ m < 57344 then
                        match parseStrAux fuel r4 with
                        | some p => some (Char.ofNat (65536 + 1024 * (n - 55296) + (m - 56320)) :: p.1, p.2)
                        | none => none
                      else
                        match parseStrAux fuel (x :: y :: a2 :: b2 :: c3 :: d2 :: r4) with
                        | some p => some (Char.ofNat n :: p.1, p.2)
                        | none => none
                    | none =>
                      match parseStrAux fuel (x :: y :: a2 :: b2 :: c3 :: d2 :: r4) with
                      | some p => some (Char.ofNat n :: p.1, p.2)
                      | none => none
                  else
                    match parseStrAux fuel (x :: y :: a2 :: b2 :: c3 :: d2 :: r4) with
                    | some p => some (Char.ofNat n :: p.1, p.2)
                    | none => none
                | _ =>
                  match parseStrAux fuel r3 with
                  | some p => some (Char.ofNat n :: p.1, p.2)
                  | none => none
              else
                match parseStrAux fuel r3 with
                | some p => some (Char.ofNat n :: p.1, p.2)
                | none => none
          | _ => none
        else
          match escCharOf e with
          | some ec =>
            match parseStrAux fuel r2 with
            | some p => some (ec :: p.1, p.2)
            | none => none
          | none => none
    else if c.toNat < 32 then none
    else
      match parseStrAux fuel r with
      | some p => some (c :: p.1, p.2)
      | none => none

/-- Parse a JSON string body with sufficient fuel (each parsing step
consumes at least one character of the input). -/
def parseStr (s : List Char) : Option (List Char × List Char) :=
  parseStrAux (s.length + 1) s

/-- Parse the integer-digit part of a JSON number: `0`, or a nonzero digit
followed by more digits (JSON forbids leading zeros). -/
def parseIntDigits : List Char → Option (List Char × List Char)
  | [] => none
  | c :: r =>
    if c = '0' then some (['0'], r)
    else if isDigit c then
      let p := takeDigits r
      some (c :: p.1, p.2)
    else none

/-- Parse an optional fraction part `.digits` (at least one digit). -/
def parseFrac : List Char → Option (List Char × List Char)
  | [] => some ([], [])
  | c :: r =>
    if c = '.' then
      match takeDigits r with
      | ([], _) => none
      | (ds, r2) => some (ds, r2)
    else some ([], c :: r)

/-- Parse exponent digits after the sign. -/
def expDigits (sg : Bool) (s : List Char) : Option (Option (Bool × List Char) × List Char) :=
  match takeDigits s with
  | ([], _) => none
  | (ds, r) => some (some (sg, ds), r)

/-- Parse an optional exponent part `e`/`E`, optional sign, digits. -/
def parseExpPart : List Char → Option (Option (Bool × List Char) × List Char)
  | [] => some (none, [])
  | c :: r =>
    if c = 'e' ∨ c = 'E' then
      match r with
      | [] => none
      | c2 :: r2 =>
        if c2 = '+' then expDigits false r2
        else if c2 = '-' then expDigits true r2
        else expDigits false (c2 :: r2)
    else some (none, c :: r)

/-- Parse the digits of a JSON number after the optional minus sign. -/
def parseNumTail (neg : Bool) (s : List Char) : Option (JNum × List Char) :=
  match parseIntDigits s with
  | none => none
  | some (ip, s2) =>
    match parseFrac s2 with
    | none => none
    | some (fr, s3) =>
      match parseExpPart s3 with
      | none => none
      | some (ex, s4) => some (⟨neg, ip, fr, ex⟩, s4)

/-- Parse a JSON number. -/
def parseNumber : List Char → Option (JNum × List Char)
  | [] => none
  | c :: r => if c = '-' then parseNumTail true r else parseNumTail false (c :: r)

mutual
/-- Fuel-indexed parser for one JSON value, whitespace allowed in front.
Mirrors the grammar `JSON.parse` accepts; the fuel only bounds the number of
recursive steps and `jsonParse` supplies enough of it for any input. -/
def parseValue : Nat → List Char → Option (JsonValue × List Char)
  | 0, _ => none
  | fuel + 1, s =>
    match skipWs s with
    | [] => none
    | c :: r =>
      if c = '[' then
        parseElemsStart fuel r
      else if c = '{' then
        parseFieldsStart fuel r
      else if c = '"' then
        match parseStr r with
        | some p => some (.str p.1, p.2)
        | none => none
      else if c = 't' then
        match r with
        | c1 :: c2 :: c3 :: r2 =>
          if c1 = 'r' ∧ c2 = 'u' ∧ c3 = 'e' then some (.bool true, r2) else none
        | _ => none
      else if c = 'f' then
        match r with
        | c1 :: c2 :: c3 :: c4 :: r2 =>
          if c1 = 'a' ∧ c2 = 'l' ∧ c3 = 's' ∧ c4 = 'e' then some (.bool false, r2) else none
        | _ => none
      else if c = 'n' then
        match r with
        | c1 :: c2 :: c3 :: r2 =>
          if c1 = 'u' ∧ c2 = 'l' ∧ c3 = 'l' then some (.null, r2) else none
        | _ => none
      else
        match parseNumber (c :: r) with
        | some p => some (.num p.1, p.2)
        | none => none
/-- After an opening `[`: empty array or the elements. -/
def parseElemsStart : Nat → List Char → Option (JsonValue × List Char)
  | 0, _ => none
  | fuel + 1, s =>
    match skipWs s with
    | [] => none
    | c :: r =>
      if c = ']' then some (.arr .nil, r)
      else
        match parseElemsNE fuel (c :: r) with
        | some p => some (.arr p.1, p.2)
        | none => none
/-- One or more comma-separated array elements, then `]`. -/
def parseElemsNE : Nat → List Char → Option (JsonList × List Char)
  | 0, _ => none
  | fuel + 1, s =>
    match parseValue fuel s with
    | none => none
    | some (v, r) =>
      match skipWs r with
      | [] => none
      | c :: r2 =>
        if c = ',' then
          match parseElemsNE fuel r2 with
          | some p => some (.cons v p.1, p.2)
          | none => none
        else if c = ']' then some (.cons v .nil, r2)
        else none
/-- After an opening brace: empty object or the fields. -/
def parseFieldsStart : Nat → List Char → Option (JsonValue × List Char)
  | 0, _ => none
  | fuel + 1, s =>
    match skipWs s with
    | [] => none
    | c :: r =>
      if c = '}' then some (.obj .nil, r)
      else
        match parseFieldsNE fuel (c :: r) with
        | some p => some (.obj p.1, p.2)
        | none => none
/-- One or more comma-separated `"key":value` fields, then a closing
brace. -/
def parseFieldsNE : Nat → List Char → Option (JsonFields × List Char)
  | 0, _ => none
  | fuel + 1, s =>
    match s with
    | [] => none
    | c :: r =>
      if c = '"' then
        match parseStr r with
        | none => none
        | some (k, r2) =>
          match skipWs r2 with
          | [] => none
          | c2 :: r3 =>
            if c2 = ':' then
              match parseValue fuel r3 with
              | none => none
              | some (v, r4) =>
                match skipWs r4 with
                | [] => none
                | c3 :: r5 =>
                  if c3 = ',' then
                    match skipWs r5 with
                    | [] => none
                    | c4 :: r6 =>
                      match parseFieldsNE fuel (c4 :: r6) with
                      | some p => some (.cons k v p.1, p.2)
                      | none => none
                  else if c3 = '}' then some (.cons k v .nil, r5)
                  else none
            else none
      else none

end

/-- The model of `JSON.parse` on a character list: parse one value, allow
trailing whitespace only.  The fuel `2 * length + 2` exceeds the number of
recursive parser steps any input can cause. -/
def jsonParse (s : List Char) : Option JsonValue :=
  match parseValue (2 * s.length + 2) s with
  | some (v, r) => if skipWs r = [] then some v else none
  | none => none

/-- The JSON object a new post is stored as: the object literal
`{ id, title, body }` of `useAddPost` / the add-button handler, fields in
that order. -/
def encodePost (p : Post) : JsonValue :=
  .obj (.cons ['i', 'd'] (.num (JNum.ofInt p.id))
    (.cons ['t', 'i', 't', 'l', 'e'] (.str p.title.data)
      (.cons ['b', 'o', 'd', 'y'] (.str p.body.data) .nil)))

/-- Encode a list of posts element-wise. -/
def encodeList : List Post → JsonList
  | [] => .nil
  | p :: ps => .cons (encodePost p) (encodeList ps)

/-- The JSON value of a whole post collection. -/
def encodePosts (ps : List Post) : JsonValue :=
  .arr (encodeList ps)

/-- Serialize a post collection exactly as the program writes it to the
store: `JSON.stringify` of the array of post objects. -/
def serializePosts (ps : List Post) : String :=
  String.mk (stringifyVal (encodePosts ps))

/-- The typed (TypeScript `Post`) view of one parsed JSON value: an object
with exactly the fields `id` (an integer literal), `title` and `body`
(strings), in stored order.  This is the canonical shape `serializePosts`
produces. -/
def decodePost : JsonValue → Option Post
  | .obj (.cons k1 (.num j) (.cons k2 (.str t) (.cons k3 (.str b) .nil))) =>
    if k1 = ['i', 'd'] ∧ k2 = ['t', 'i', 't', 'l', 'e'] ∧ k3 = ['b', 'o', 'd', 'y'] then
      (j.toInt?).map (fun i => ⟨i, String.mk t, String.mk b⟩)
    else none
  | _ => none

/-- Decode a JSON list of post objects. -/
def decodeList : JsonList → Option (List Post)
  | .nil => some []
  | .cons v vs => do
    let p ← decodePost v
    let ps ← decodeList vs
    some (p :: ps)

/-- Decode a JSON value as a post collection. -/
def decodePosts : JsonValue → Option (List Post)
  | .arr xs => decodeList xs
  | _ => none

/-- Deserialize a stored string into a post collection: `JSON.parse`
followed by the typed view. -/
def deserializePosts (s : String) : Option (List Post) :=
  (jsonParse s.data).bind decodePosts

/-- JS property access `v[key]` on a parsed JSON value: `none` stands for
`undefined` (element not an object, or no such field).  With duplicate keys
`JSON.parse` keeps the last occurrence, hence the last match wins. -/
def getFieldLast : JsonFields → List Char → Option JsonValue
  | .nil, _ => none
  | .cons k v fs, key =>
    match getFieldLast fs key with
    | some w => some w
    | none => if k = key then some v else none

/-- JS `post.id === postId` for a parsed array element `post` and integer
`postId`: field access then strict equality (no coercion; `undefined` and
non-numbers compare false). -/
def jsIdEq (v : JsonValue) (i : Int) : Bool :=
  match v with
  | .obj fs =>
    match getFieldLast fs ['i', 'd'] with
    | some (.num j) => j.eqInt i
    | _ => false
  | _ => false

/-- `posts.find((post) => post.id === postId)` on the parsed array:
first match or `undefined`; property access on a `null` element throws a
`TypeError`. -/
def jsFindById : JsonList → Int → Except String (Option JsonValue)
  | .nil, _ => .ok none
  | .cons v vs, i =>
    match v with
    | .null => .error "TypeError: Cannot read properties of null"
    | _ => if jsIdEq v i then .ok (some v) else jsFindById vs i

/-- Append one element at the end of a JSON array, as `response.push(newPost)`
does. -/
def appendElem : JsonList → JsonValue → JsonList
  | .nil, v => .cons v .nil
  | .cons w ws, v => .cons w (appendElem ws v)

/-- The message of the `SyntaxError` that `JSON.parse` throws on invalid
input (engine-dependent text; non-empty in every engine).  React-query
surfaces it as `error.message`. -/
def parseErrorMsg : String :=
  "Unexpected token in JSON"

/-- The queryFn of `usePosts` acting on the store (the string under the
"posts" key, `none` = absent): if the stored value is falsy (absent or the
empty string) it writes `"[]"` and returns the empty array, otherwise it
returns `JSON.parse` of the stored value or fails with the parse error.
Result: the settled query value (or error) and the store afterwards. -/
def postsQueryFn (store : Option String) : Except String JsonValue × Option String :=
  match store with
  | none => (.ok (.arr .nil), some "[]")
  | some s =>
    if s = "" then (.ok (.arr .nil), some "[]")
    else
      match jsonParse s.data with
      | none => (.error parseErrorMsg, some s)
      | some v => (.ok v, some s)

/-- The queryFn of `usePost` acting on the store: throws "No posts yet" if
the stored value is falsy, else parses the collection and runs
`posts.find((post) => post.id === postId)`; `ok none` is the `undefined`
result of an unmatched id.  The store is returned unchanged: this read
never writes. -/
def postQueryFn (postId : Int) (store : Option String) :
    Except String (Option JsonValue) × Option String :=
  match store with
  | none => (.error "No posts yet", none)
  | some s =>
    if s = "" then (.error "No posts yet", some s)
    else
      match jsonParse s.data with
      | none => (.error parseErrorMsg, some s)
      | some (.arr xs) => (jsFindById xs postId, some s)
      | some _ => (.error "TypeError: posts.find is not a function", some s)

/-- The `enabled` option of `usePost`: `!!postId`, i.e. JS truthiness of the
id (zero is falsy, every other integer truthy). -/
def usePostEnabled (postId : Int) : Bool :=
  postId != 0

/-- The mutationFn of `useAddPost`: read the store defaulting the absent
value to `"[]"` (`?? "[]"` — only `null` is defaulted, an empty string is
parsed and fails), parse it, `push` the new post (a `TypeError` unless the
parsed value is an array), and write the full collection back. -/
def addPostMutation (store : Option String) (p : Post) : Except String (Option String) :=
  let s := match store with
    | none => "[]"
    | some s => s
  match jsonParse s.data with
  | none => .error parseErrorMsg
  | some (.arr xs) =>
    .ok (some (String.mk (stringifyVal (.arr (appendElem xs (encodePost p))))))
  | some _ => .error "TypeError: response.push is not a function"

/-- The query cache entries the program uses: the data cached under the key
`["posts"]` and, for each id, the data cached under `["post", id]`
(`none` = nothing cached). -/
structure QueryCache where
  posts : Option (List Post)
  postById : Int → Option Post

/-- The `onSuccess` handler of `useAddPost`:
`setQueryData(["posts"], (posts) => [...(posts ?? []), post])` — the cached
list (defaulted to empty) with the new post appended; no other cache entry
is touched and the store is not read. -/
def onSuccessUpdate (cache : QueryCache) (p : Post) : QueryCache :=
  { cache with posts := some (cache.posts.getD [] ++ [p]) }

/-- One full `mutate` call of `useAddPost`: run the mutationFn against the
store; on success apply the optimistic cache update. -/
def mutateAdd (store : Option String) (cache : QueryCache) (p : Post) :
    Except String (Option String × QueryCache) :=
  match addPostMutation store p with
  | .error e => .error e
  | .ok store' => .ok (store', onSuccessUpdate cache p)

/-- A sequence of add-post mutations against the store, stopping at the
first failure. -/
def addAll (store : Option String) : List Post → Except String (Option String)
  | [] => .ok store
  | p :: ps =>
    match addPostMutation store p with
    | .error e => .error e
    | .ok store' => addAll store' ps

/-- Whether `pat` occurs as a contiguous run at the start of `hay`. -/
def leadsWith : List Char → List Char → Bool
  | _, [] => true
  | [], _ :: _ => false
  | c :: r, p :: q => c == p && leadsWith r q

/-- Whether `pat` occurs contiguously anywhere in `hay` (JS
`String.includes`). -/
def containsSub : List Char → List Char → Bool
  | hay, pat =>
    match hay with
    | [] => pat.isEmpty
    | _ :: r => leadsWith hay pat || containsSub r pat

/-- The add-button handler of the `Posts` component: it draws one random
number (`const id = Math.trunc(Math.random() * 100000)`) that is spliced
into the title, and a second, independent draw becomes the stored post's
`id` field.  The two draw results are the parameters. -/
def makeNewPost (firstDraw secondDraw : Nat) : Post :=
  { id := (secondDraw : Int)
    title := String.mk (['h', 'e', 'l', 'l', 'o', ' '] ++ natToChars firstDraw)
    body := "yoo" }

/-- Two characters with different code points differ. -/
theorem ne_of_toNat_ne {c d : Char} (h : c.toNat ≠ d.toNat) : c ≠ d :=
  fun he => h (he ▸ rfl)

/-- A digit character's code point lies between 48 and 57. -/
theorem isDigit_toNat {c : Char} (h : isDigit c = true) :
    48 ≤ c.toNat ∧ c.toNat ≤ 57 := by
  simpa [isDigit, Bool.and_eq_true, decide_eq_true_iff] using h

/-- `digitChar` of a digit is a digit character. -/
theorem digitChar_isDigit {d : Nat} (h : d < 10) : isDigit (digitChar d) = true := by
  interval_cases d <;> decide

/-- `digitChar` recovers its digit. -/
theorem digitChar_toNat {d : Nat} (h : d < 10) : (digitChar d).toNat = 48 + d := by
  interval_cases d <;> rfl

/-- `digitChar` of a nonzero digit is not the character `0`. -/
theorem digitChar_ne_zero {d : Nat} (h0 : d ≠ 0) (h : d < 10) : digitChar d ≠ '0' := by
  interval_cases d
  · exact absurd rfl h0
  all_goals decide

/-- `digitsVal` over a snoc: one more least-significant digit. -/
theorem digitsVal_concat (l : List Char) (c : Char) :
    digitsVal (l ++ [c]) = 10 * digitsVal l + (c.toNat - 48) := by
  simp [digitsVal, List.foldl_append]

/-- `digitsVal` of the reversed digit-character image of a little-endian
digit list is the number the digits denote. -/
theorem digitsVal_rev_map (ds : List Nat) (h : ∀ d ∈ ds, d < 10) :
    digitsVal ((ds.map digitChar).reverse) = Nat.ofDigits 10 ds := by
  induction ds with
  | nil => simp [digitsVal, Nat.ofDigits]
  | cons d ds ih =>
    have hd : d < 10 := h d (by simp)
    have hds : ∀ x ∈ ds, x < 10 := fun x hx => h x (by simp [hx])
    rw [List.map_cons, List.reverse_cons, digitsVal_concat, ih hds,
      digitChar_toNat hd, Nat.ofDigits_cons]
    omega

/-- Reading back the decimal representation gives the number. -/
theorem digitsVal_natToChars (n : Nat) : digitsVal (natToChars n) = n := by
  by_cases h : n = 0
  · subst h; decide
  · rw [natToChars_eq, if_neg h,
      digitsVal_rev_map _ (fun d hd => Nat.digits_lt_base (by norm_num) hd),
      Nat.ofDigits_digits]

/-- Every character of a decimal representation is a digit. -/
theorem natToChars_digits (n : Nat) : ∀ c ∈ natToChars n, isDigit c = true := by
  intro c hc
  by_cases h : n = 0
  · subst h
    rw [show natToChars 0 = ['0'] from rfl] at hc
    simp at hc; subst hc; decide
  · rw [natToChars_eq, if_neg h] at hc
    rw [List.mem_reverse] at hc
    obtain ⟨d, hd, rfl⟩ := List.mem_map.mp hc
    exact digitChar_isDigit (Nat.digits_lt_base (by norm_num) hd)

/-- The decimal representation of a nonzero number starts with a nonzero
digit character, and the rest are digit characters. -/
theorem natToChars_cons (n : Nat) (h : n ≠ 0) :
    ∃ c ds, natToChars n = c :: ds ∧ isDigit c = true ∧ c ≠ '0' := by
  have hne : Nat.digits 10 n ≠ [] := Nat.digits_ne_nil_iff_ne_zero.mpr h
  set L := Nat.digits 10 n with hL
  obtain ⟨d, t, hrev⟩ : ∃ d t, L.reverse = d :: t :=
    List.exists_cons_of_ne_nil (by simpa using hne)
  have hrepr : natToChars n = digitChar d :: (t.map digitChar) := by
    rw [natToChars_eq, if_neg h, ← List.map_reverse, ← hL, hrev, List.map_cons]
  have hmem : d ∈ L := by
    rw [← List.mem_reverse, hrev]; exact List.mem_cons_self d t
  have hlt : d < 10 := Nat.digits_lt_base (by norm_num) hmem
  have hnz : d ≠ 0 := by
    have h2 : L.getLast hne ≠ 0 := Nat.getLast_digit_ne_zero 10 h
    have h3 : L.getLast? = some d := by
      rw [← List.head?_reverse, hrev]; rfl
    rw [List.getLast?_eq_getLast L hne] at h3
    exact (Option.some_inj.mp h3) ▸ h2
  exact ⟨_, _, hrepr, digitChar_isDigit hlt, digitChar_ne_zero hnz hlt⟩

/-- Whether the first character, if any, is not a digit. -/
def noDigitHead : List Char → Bool
  | [] => true
  | c :: _ => !(isDigit c)

/-- `takeDigits` takes exactly a leading digit run. -/
theorem takeDigits_append (ds rest : List Char)
    (hds : ∀ c ∈ ds, isDigit c = true) (hrest : noDigitHead rest = true) :
    takeDigits (ds ++ rest) = (ds, rest) := by
  induction ds with
  | nil =>
    simp only [List.nil_append]
    cases rest with
    | nil => rfl
    | cons c r =>
      simp only [noDigitHead, Bool.not_eq_true'] at hrest
      simp [takeDigits, hrest]
  | cons c ds ih =>
    have hc : isDigit c = true := hds c (by simp)
    have hds' : ∀ x ∈ ds, isDigit x = true := fun x hx => hds x (by simp [hx])
    simp [takeDigits, hc, ih hds']

/-- `parseIntDigits` reads back exactly a decimal representation when no
digit follows it. -/
theorem parseIntDigits_nat (n : Nat) (rest : List Char)
    (hrest : noDigitHead rest = true) :
    parseIntDigits (natToChars n ++ rest) = some (natToChars n, rest) := by
  by_cases h : n = 0
  · subst h
    show parseIntDigits ('0' :: rest) = some (['0'], rest)
    simp [parseIntDigits]
  · obtain ⟨c, ds, hcons, hdig, hne0⟩ := natToChars_cons n h
    have hds : ∀ x ∈ ds, isDigit x = true := fun x hx =>
      natToChars_digits n x (hcons ▸ List.mem_cons_of_mem c hx)
    rw [hcons]
    show parseIntDigits (c :: (ds ++ rest)) = some (c :: ds, rest)
    simp only [parseIntDigits]
    rw [if_neg hne0, if_pos hdig, takeDigits_append ds rest hds hrest]

/-- What may legally follow a serialized value inside a serialized
collection: nothing, a comma, or a closing bracket or brace. -/
def boundaryOk : List Char → Bool
  | [] => true
  | c :: _ => c == ',' || c == ']' || c == '}'

/-- At a boundary no digit follows. -/
theorem boundary_noDigit {l : List Char} (h : boundaryOk l = true) :
    noDigitHead l = true := by
  cases l with
  | nil => rfl
  | cons c r =>
    simp only [boundaryOk, Bool.or_eq_true, beq_iff_eq] at h
    rcases h with (rfl | rfl) | rfl <;> rfl

/-- At a boundary there is no fraction part. -/
theorem boundary_parseFrac {l : List Char} (h : boundaryOk l = true) :
    parseFrac l = some ([], l) := by
  cases l with
  | nil => rfl
  | cons c r =>
    simp only [boundaryOk, Bool.or_eq_true, beq_iff_eq] at h
    rcases h with (rfl | rfl) | rfl <;> simp [parseFrac]

/-- At a boundary there is no exponent part. -/
theorem boundary_parseExp {l : List Char} (h : boundaryOk l = true) :
    parseExpPart l = some (none, l) := by
  cases l with
  | nil => rfl
  | cons c r =>
    simp only [boundaryOk, Bool.or_eq_true, beq_iff_eq] at h
    rcases h with (rfl | rfl) | rfl <;> simp [parseExpPart]

/-- Every decimal representation starts with a digit character. -/
theorem natToChars_head (n : Nat) :
    ∃ c ds, natToChars n = c :: ds ∧ isDigit c = true := by
  by_cases h : n = 0
  · exact ⟨'0', [], by rw [h]; rfl, by decide⟩
  · obtain ⟨c, ds, hcons, hdig, -⟩ := natToChars_cons n h
    exact ⟨c, ds, hcons, hdig⟩

/-- Parsing the printed form of an integer at a boundary gives the number
back. -/
theorem parseNumber_ofInt (i : Int) (rest : List Char)
    (hrest : boundaryOk rest = true) :
    parseNumber (stringifyNum (JNum.ofInt i) ++ rest) = some (JNum.ofInt i, rest) := by
  have htail : parseNumTail (decide (i < 0)) (natToChars i.natAbs ++ rest)
      = some (JNum.ofInt i, rest) := by
    simp [parseNumTail, parseIntDigits_nat _ _ (boundary_noDigit hrest),
      boundary_parseFrac hrest, boundary_parseExp hrest, JNum.ofInt]
  by_cases hi : i < 0
  · have hs : stringifyNum (JNum.ofInt i) = '-' :: natToChars i.natAbs := by
      simp [stringifyNum, JNum.ofInt, hi]
    rw [hs]
    show parseNumber ('-' :: (natToChars i.natAbs ++ rest)) = _
    rw [parseNumber, if_pos rfl]
    simpa [hi] using htail
  · have hs : stringifyNum (JNum.ofInt i) = natToChars i.natAbs := by
      simp [stringifyNum, JNum.ofInt, hi]
    rw [hs]
    obtain ⟨c, ds, hcons, hdig⟩ := natToChars_head i.natAbs
    rw [hcons]
    show parseNumber (c :: (ds ++ rest)) = _
    have hcne : ¬(c = '-') := by
      have h1 := (isDigit_toNat hdig).1
      have h2 : ('-' : Char).toNat = 45 := rfl
      exact ne_of_toNat_ne (by omega)
    rw [parseNumber, if_neg hcne, ← List.cons_append, ← hcons]
    simpa [hi] using htail

/-- `hexVal` inverts `hexDigitChar` on one hex digit. -/
theorem hexVal_hexDigitChar {d : Nat} (h : d < 16) :
    hexVal (hexDigitChar d) = some d := by
  interval_cases d <;> decide

/-- The `\u00XX` escape of a control character reads back as its code
point. -/
theorem hex4_control (t : Nat) (h : t < 32) :
    hex4 '0' '0' (hexDigitChar (t / 16)) (hexDigitChar (t % 16)) = some t := by
  have h1 : t / 16 < 16 := by omega
  have h2 : t % 16 < 16 := Nat.mod_lt _ (by norm_num)
  have e0 : hexVal '0' = some 0 := by decide
  simp only [hex4, e0, hexVal_hexDigitChar h1, hexVal_hexDigitChar h2,
    Option.bind_eq_bind, Option.some_bind]
  exact congrArg some (by omega)

/-- Parsing an escaped string body up to its closing quote recovers the
original characters, for any sufficient fuel. -/
theorem parseStrAux_escape (s : List Char) : ∀ (rest : List Char) (fuel : Nat),
    s.length < fuel →
    parseStrAux fuel (escapeStr s ++ ('"' :: rest)) = some (s, rest) := by
  induction s with
  | nil =>
    intro rest fuel hf
    obtain ⟨f, rfl⟩ : ∃ f, fuel = f + 1 := ⟨fuel - 1, by omega⟩
    simp [escapeStr, parseStrAux]
  | cons c s ih =>
    intro rest fuel hf
    obtain ⟨f, rfl⟩ : ∃ f, fuel = f + 1 := ⟨fuel - 1, by omega⟩
    have hlen : s.length < f := by
      have := Nat.lt_of_succ_lt_succ (by simpa using hf)
      simpa using this
    have ihf := ih rest f hlen
    rw [escapeStr, escapeChar]
    by_cases h1 : c = '"'
    · subst h1; simp [parseStrAux, escCharOf, ihf]
    rw [if_neg h1]
    by_cases h2 : c = '\\'
    · subst h2; simp [parseStrAux, escCharOf, ihf]
    rw [if_neg h2]
    by_cases h3 : c = '\x08'
    · subst h3; simp [parseStrAux, escCharOf, ihf]
    rw [if_neg h3]
    by_cases h4 : c = '\t'
    · subst h4; simp [parseStrAux, escCharOf, ihf]
    rw [if_neg h4]
    by_cases h5 : c = '\n'
    · subst h5; simp [parseStrAux, escCharOf, ihf]
    rw [if_neg h5]
    by_cases h6 : c = '\x0c'
    · subst h6; simp [parseStrAux, escCharOf, ihf]
    rw [if_neg h6]
    by_cases h7 : c = '\r'
    · subst h7; simp [parseStrAux, escCharOf, ihf]
    rw [if_neg h7]
    by_cases h8 : c.toNat < 32
    · rw [if_pos h8]
      have hsur : ¬(55296 ≤ c.toNat ∧ c.toNat < 56320) := by omega
      simp [parseStrAux, hex4_control c.toNat h8, hsur, ihf, Char.ofNat_toNat]
    · rw [if_neg h8]
      simp [parseStrAux, h1, h2, h8, ihf]

/-- Escaping never shortens a string. -/
theorem escapeStr_length (s : List Char) : s.length ≤ (escapeStr s).length := by
  induction s with
  | nil => simp [escapeStr]
  | cons c s ih =>
    have h1 : 1 ≤ (escapeChar c).length := by
      rw [escapeChar]; split_ifs <;> simp
    simp only [escapeStr, List.length_append, List.length_cons]
    omega

/-- `parseStr` (with its own fuel) recovers an escaped string body. -/
theorem parseStr_escape (s rest : List Char) :
    parseStr (escapeStr s ++ ('"' :: rest)) = some (s, rest) := by
  apply parseStrAux_escape
  have := escapeStr_length s
  simp only [List.length_append, List.length_cons]
  omega

mutual
/-- Well-formed parser output shapes reachable by the program: every number
is the canonical integer literal of some integer (as `JSON.stringify`
writes ids). -/
def ValOK : JsonValue → Prop
  | .null => True
  | .bool _ => True
  | .num j => ∃ i : Int, j = JNum.ofInt i
  | .str _ => True
  | .arr xs => ListOK xs
  | .obj fs => FieldsOK fs
/-- All elements well formed. -/
def ListOK : JsonList → Prop
  | .nil => True
  | .cons v vs => ValOK v ∧ ListOK vs
/-- All field values well formed. -/
def FieldsOK : JsonFields → Prop
  | .nil => True
  | .cons _ v fs => ValOK v ∧ FieldsOK fs
end

mutual
/-- Fuel needed by `parseValue` to parse this value's serialization. -/
def bound : JsonValue → Nat
  | .arr xs => 2 + eBound xs
  | .obj fs => 2 + fBound fs
  | _ => 1
/-- Fuel needed by `parseElemsNE` for these elements. -/
def eBound : JsonList → Nat
  | .nil => 0
  | .cons v vs => 1 + bound v + eBound vs
/-- Fuel needed by `parseFieldsNE` for these fields. -/
def fBound : JsonFields → Nat
  | .nil => 0
  | .cons _ v fs => 1 + bound v + fBound fs
end

/-- Every value costs at least one unit of fuel. -/
theorem bound_pos (v : JsonValue) : 1 ≤ bound v := by
  cases v <;> simp [bound] <;> omega

/-- `skipWs` is the identity on input that does not start with
whitespace. -/
theorem skipWs_not_ws {c : Char} (r : List Char) (h : isWs c = false) :
    skipWs (c :: r) = c :: r := by
  simp [skipWs, h]

/-- A digit character is not one of the structural characters of JSON and
not whitespace. -/
theorem digit_not_structural {c : Char} (h : isDigit c = true) :
    isWs c = false ∧ c ≠ '[' ∧ c ≠ '{' ∧ c ≠ '"' ∧ c ≠ 't' ∧ c ≠ 'f' ∧ c ≠ 'n'
      ∧ c ≠ ']' ∧ c ≠ '}' := by
  have hb := isDigit_toNat h
  refine ⟨?_, ?_, ?_, ?_, ?_, ?_, ?_, ?_, ?_⟩
  · simp only [isWs, Bool.or_eq_false_iff, decide_eq_false_iff_not]; omega
  · exact ne_of_toNat_ne (by have : ('[' : Char).toNat = 91 := rfl; omega)
  · exact ne_of_toNat_ne (by have : ('{' : Char).toNat = 123 := rfl; omega)
  · exact ne_of_toNat_ne (by have : ('"' : Char).toNat = 34 := rfl; omega)
  · exact ne_of_toNat_ne (by have : ('t' : Char).toNat = 116 := rfl; omega)
  · exact ne_of_toNat_ne (by have : ('f' : Char).toNat = 102 := rfl; omega)
  · exact ne_of_toNat_ne (by have : ('n' : Char).toNat = 110 := rfl; omega)
  · exact ne_of_toNat_ne (by have : (']' : Char).toNat = 93 := rfl; omega)
  · exact ne_of_toNat_ne (by have : ('}' : Char).toNat = 125 := rfl; omega)

/-- The serialization of a well-formed value starts with a character that
is not whitespace and not a closing bracket, brace or comma. -/
theorem stringify_head (v : JsonValue) (hOK : ValOK v) :
    ∃ c t, stringifyVal v = c :: t ∧ isWs c = false ∧ c ≠ ']' ∧ c ≠ '}' := by
  cases v with
  | null => refine ⟨'n', _, rfl, ?_, ?_, ?_⟩ <;> decide
  | bool b =>
    cases b with
    | true => refine ⟨'t', _, rfl, ?_, ?_, ?_⟩ <;> decide
    | false => refine ⟨'f', _, rfl, ?_, ?_, ?_⟩ <;> decide
  | str s => refine ⟨'"', _, rfl, ?_, ?_, ?_⟩ <;> decide
  | arr xs => refine ⟨'[', _, rfl, ?_, ?_, ?_⟩ <;> decide
  | obj fs => refine ⟨'{', _, rfl, ?_, ?_, ?_⟩ <;> decide
  | num j =>
    obtain ⟨i, rfl⟩ := hOK
    have hs : stringifyNum (JNum.ofInt i) = intToChars i := by
      by_cases hi : i < 0 <;> simp [stringifyNum, JNum.ofInt, intToChars, hi]
    by_cases hi : i < 0
    · refine ⟨'-', natToChars i.natAbs, ?_, by decide, by decide, by decide⟩
      rw [stringifyVal, hs, intToChars, if_pos hi]
    · obtain ⟨c, ds, hcons, hdig⟩ := natToChars_head i.natAbs
      obtain ⟨hws, -, -, -, -, -, -, hr1, hr2⟩ := digit_not_structural hdig
      refine ⟨c, ds, ?_, hws, hr1, hr2⟩
      rw [stringifyVal, hs, intToChars, if_neg hi, hcons]

/-- The canonical integer literal prints as the decimal integer. -/
theorem stringifyNum_ofInt (i : Int) :
    stringifyNum (JNum.ofInt i) = intToChars i := by
  by_cases hi : i < 0 <;> simp [stringifyNum, JNum.ofInt, intToChars, hi]

/-- `parseValue` reads back a serialized integer at a boundary. -/
theorem parseValue_ofInt (f : Nat) (i : Int) (rest : List Char)
    (hb : boundaryOk rest = true) :
    parseValue (f + 1) (stringifyNum (JNum.ofInt i) ++ rest)
      = some (.num (JNum.ofInt i), rest) := by
  have hnum := parseNumber_ofInt i rest hb
  rw [stringifyNum_ofInt] at *
  by_cases hi : i < 0
  · rw [intToChars, if_pos hi] at *
    simp only [List.cons_append] at *
    simp +decide [parseValue, skipWs, hnum]
  · rw [intToChars, if_neg hi] at *
    obtain ⟨c, ds, hcons, hdig⟩ := natToChars_head i.natAbs
    rw [hcons] at hnum ⊢
    obtain ⟨hws, h1, h2, h3, h4, h5, h6, -, -⟩ := digit_not_structural hdig
    simp only [List.cons_append] at hnum ⊢
    simp [parseValue, skipWs, hws, h1, h2, h3, h4, h5, h6, hnum]

/-- A nonempty serialized field list starts with a quote. -/
theorem stringifyFields_head (k : List Char) (v : JsonValue) (fs : JsonFields) :
    ∃ u, stringifyFields (.cons k v fs) = '"' :: u := by
  cases fs <;> rw [stringifyFields] <;> exact ⟨_, rfl⟩

/-- Projection of well-formedness at a number node. -/
theorem valOK_num {j : JNum} (h : ValOK (.num j)) : ∃ i : Int, j = JNum.ofInt i := by
  simpa [ValOK] using h

/-- Projection of well-formedness at an array node. -/
theorem valOK_arr {xs : JsonList} (h : ValOK (.arr xs)) : ListOK xs := by
  simpa [ValOK] using h

/-- Projection of well-formedness at an object node. -/
theorem valOK_obj {fs : JsonFields} (h : ValOK (.obj fs)) : FieldsOK fs := by
  simpa [ValOK] using h

/-- Projection of element-list well-formedness at a cons. -/
theorem listOK_cons {v : JsonValue} {vs : JsonList} (h : ListOK (.cons v vs)) :
    ValOK v ∧ ListOK vs := by
  simpa [ListOK] using h

/-- Projection of field-list well-formedness at a cons. -/
theorem fieldsOK_cons {k : List Char} {v : JsonValue} {fs : JsonFields}
    (h : FieldsOK (.cons k v fs)) : ValOK v ∧ FieldsOK fs := by
  simpa [FieldsOK] using h

/-- Parsing inverts printing, jointly for the five mutual parser functions,
for any sufficient fuel. -/
theorem parse_stringify : ∀ fuel : Nat,
    (∀ v rest, ValOK v → boundaryOk rest = true → bound v ≤ fuel →
      parseValue fuel (stringifyVal v ++ rest) = some (v, rest))
    ∧ (∀ xs rest, ListOK xs → 1 + eBound xs ≤ fuel →
      parseElemsStart fuel (stringifyElems xs ++ (']' :: rest)) = some (.arr xs, rest))
    ∧ (∀ xs rest, ListOK xs → xs ≠ .nil → eBound xs ≤ fuel →
      parseElemsNE fuel (stringifyElems xs ++ (']' :: rest)) = some (xs, rest))
    ∧ (∀ fs rest, FieldsOK fs → 1 + fBound fs ≤ fuel →
      parseFieldsStart fuel (stringifyFields fs ++ ('}' :: rest)) = some (.obj fs, rest))
    ∧ (∀ fs rest, FieldsOK fs → fs ≠ .nil → fBound fs ≤ fuel →
      parseFieldsNE fuel (stringifyFields fs ++ ('}' :: rest)) = some (fs, rest)) := by
  intro fuel
  induction fuel with
  | zero =>
    refine ⟨?_, ?_, ?_, ?_, ?_⟩
    · intro v rest _ _ hbound; have := bound_pos v; omega
    · intro xs rest _ hbound; omega
    · intro xs rest _ hne hbound
      cases xs with
      | nil => exact absurd rfl hne
      | cons v vs => rw [eBound] at hbound; omega
    · intro fs rest _ hbound; omega
    · intro fs rest _ hne hbound
      cases fs with
      | nil => exact absurd rfl hne
      | cons k v fs => rw [fBound] at hbound; omega
  | succ f ih =>
    obtain ⟨ih1, ih2, ih3, ih4, ih5⟩ := ih
    refine ⟨?_, ?_, ?_, ?_, ?_⟩
    · -- parseValue
      intro v rest hOK hb hbound
      cases v with
      | null => rw [stringifyVal]; simp +decide [parseValue, skipWs]
      | bool b =>
        cases b <;> rw [stringifyVal] <;> simp +decide [parseValue, skipWs]
      | num j =>
        obtain ⟨i, rfl⟩ := valOK_num hOK
        rw [stringifyVal]
        exact parseValue_ofInt f i rest hb
      | str s =>
        rw [stringifyVal]
        have h := parseStr_escape s rest
        simp only [List.cons_append, List.append_assoc, List.singleton_append] at h ⊢
        simp +decide [parseValue, skipWs, h]
      | arr xs =>
        have hOKl := valOK_arr hOK
        rw [bound] at hbound
        have hstart := ih2 xs rest hOKl (by omega)
        rw [stringifyVal]
        simp only [List.cons_append, List.append_assoc, List.singleton_append] at hstart ⊢
        simp +decide [parseValue, skipWs, hstart]
      | obj fs =>
        have hOKf := valOK_obj hOK
        rw [bound] at hbound
        have hstart := ih4 fs rest hOKf (by omega)
        rw [stringifyVal]
        simp only [List.cons_append, List.append_assoc, List.singleton_append] at hstart ⊢
        simp +decide [parseValue, skipWs, hstart]
    · -- parseElemsStart
      intro xs rest hOK hfuel
      cases xs with
      | nil =>
        rw [stringifyElems]
        simp only [List.nil_append]
        simp +decide [parseElemsStart, skipWs]
      | cons v vs =>
        obtain ⟨hvOK, hlOK⟩ := listOK_cons hOK
        have hne := ih3 (.cons v vs) rest hOK (by simp) (by omega)
        obtain ⟨c, t, hcons, hws, hbr1, hbr2⟩ := stringify_head v hvOK
        have hu : ∃ u, stringifyElems (.cons v vs) = c :: u := by
          cases vs with
          | nil => exact ⟨t, by rw [stringifyElems, hcons]⟩
          | cons w ws =>
            exact ⟨t ++ ',' :: stringifyElems (.cons w ws), by rw [stringifyElems, hcons]; rfl⟩
        obtain ⟨u, hu⟩ := hu
        rw [hu] at hne ⊢
        simp only [List.cons_append] at hne ⊢
        simp [parseElemsStart, skipWs, hws, hbr1, hne]
    · -- parseElemsNE
      intro xs rest hOK hne0 hfuel
      cases xs with
      | nil => exact absurd rfl hne0
      | cons v vs =>
        obtain ⟨hvOK, hlOK⟩ := listOK_cons hOK
        rw [eBound] at hfuel
        have hbv := bound_pos v
        cases vs with
        | nil =>
          rw [stringifyElems]
          rw [eBound] at hfuel
          have h1 := ih1 v (']' :: rest) hvOK rfl (by omega)
          simp only [List.cons_append, List.append_assoc] at h1 ⊢
          simp +decide [parseElemsNE, h1, skipWs]
        | cons w ws =>
          rw [stringifyElems]
          have h1 := ih1 v (',' :: (stringifyElems (.cons w ws) ++ (']' :: rest)))
            hvOK rfl (by omega)
          have h3 := ih3 (.cons w ws) rest hlOK (by simp) (by omega)
          simp only [List.cons_append, List.append_assoc] at h1 h3 ⊢
          simp +decide [parseElemsNE, h1, skipWs, h3]
    · -- parseFieldsStart
      intro fs rest hOK hfuel
      cases fs with
      | nil =>
        rw [stringifyFields]
        simp only [List.nil_append]
        simp +decide [parseFieldsStart, skipWs]
      | cons k v fs2 =>
        have hne := ih5 (.cons k v fs2) rest hOK (by simp) (by omega)
        obtain ⟨u, hu⟩ := stringifyFields_head k v fs2
        rw [hu] at hne ⊢
        simp only [List.cons_append] at hne ⊢
        simp +decide [parseFieldsStart, skipWs, hne]
    · -- parseFieldsNE
      intro fs rest hOK hne0 hfuel
      cases fs with
      | nil => exact absurd rfl hne0
      | cons k v fs2 =>
        obtain ⟨hvOK, hfOK⟩ := fieldsOK_cons hOK
        rw [fBound] at hfuel
        have hbv := bound_pos v
        cases fs2 with
        | nil =>
          rw [stringifyFields]
          have hk := parseStr_escape k (':' :: (stringifyVal v ++ ('}' :: rest)))
          have hv := ih1 v ('}' :: rest) hvOK rfl (by omega)
          simp only [List.cons_append, List.append_assoc] at hk hv ⊢
          simp +decide [parseFieldsNE, hk, skipWs, hv]
        | cons k2 v2 fs3 =>
          rw [stringifyFields]
          obtain ⟨u2, hu2⟩ := stringifyFields_head k2 v2 fs3
          have h5 := ih5 (.cons k2 v2 fs3) rest hfOK (by simp) (by omega)
          have hk := parseStr_escape k
            (':' :: (stringifyVal v ++ (',' :: (stringifyFields (.cons k2 v2 fs3) ++ ('}' :: rest)))))
          have hv := ih1 v (',' :: (stringifyFields (.cons k2 v2 fs3) ++ ('}' :: rest)))
            hvOK rfl (by omega)
          rw [hu2] at h5 hk hv ⊢
          simp only [List.cons_append, List.append_assoc] at h5 hk hv ⊢
          simp +decide [parseFieldsNE, hk, skipWs, hv, h5]

/-- A serialized integer is at least one character long. -/
theorem stringifyNum_ofInt_len (i : Int) : 1 ≤ (stringifyNum (JNum.ofInt i)).length := by
  rw [stringifyNum_ofInt, intToChars]
  obtain ⟨c, ds, hcons, -⟩ := natToChars_head i.natAbs
  split_ifs <;> simp [hcons]

mutual
/-- The fuel a well-formed value needs is dominated by its serialized
length. -/
theorem bound_le_len : ∀ v : JsonValue, ValOK v → bound v ≤ 2 * (stringifyVal v).length
  | .null, _ => by simp [bound, stringifyVal]
  | .bool b, _ => by cases b <;> simp [bound, stringifyVal]
  | .num j, h => by
    obtain ⟨i, rfl⟩ := valOK_num h
    have h1 := stringifyNum_ofInt_len i
    simp only [bound, stringifyVal]
    omega
  | .str s, _ => by simp [bound, stringifyVal]; omega
  | .arr xs, h => by
    have h2 := eBound_le_len xs (valOK_arr h)
    simp only [bound, stringifyVal, List.length_cons, List.length_append,
      List.length_singleton]
    omega
  | .obj fs, h => by
    have h2 := fBound_le_len fs (valOK_obj h)
    simp only [bound, stringifyVal, List.length_cons, List.length_append,
      List.length_singleton]
    omega
/-- Element-list fuel is dominated by serialized length. -/
theorem eBound_le_len : ∀ xs : JsonList, ListOK xs →
    eBound xs ≤ 2 * (stringifyElems xs).length + 1
  | .nil, _ => by simp [eBound, stringifyElems]
  | .cons v .nil, h => by
    have h1 := bound_le_len v (listOK_cons h).1
    simp only [eBound, stringifyElems]
    omega
  | .cons v (.cons w ws), h => by
    obtain ⟨h1, h2⟩ := listOK_cons h
    have hb := bound_le_len v h1
    have he := eBound_le_len (.cons w ws) h2
    simp only [eBound, stringifyElems, List.length_append, List.length_cons] at he hb ⊢
    omega
/-- Field-list fuel is dominated by serialized length. -/
theorem fBound_le_len : ∀ fs : JsonFields, FieldsOK fs →
    fBound fs ≤ 2 * (stringifyFields fs).length + 1
  | .nil, _ => by simp [fBound, stringifyFields]
  | .cons k v .nil, h => by
    have h1 := bound_le_len v (fieldsOK_cons h).1
    simp only [fBound, stringifyFields, List.length_cons, List.length_append]
    omega
  | .cons k v (.cons k2 v2 fs), h => by
    obtain ⟨h1, h2⟩ := fieldsOK_cons h
    have hb := bound_le_len v h1
    have hf := fBound_le_len (.cons k2 v2 fs) h2
    simp only [fBound, stringifyFields, List.length_append, List.length_cons] at hf hb ⊢
    omega
end

/-- `jsonParse` (with its computed fuel) inverts `stringifyVal` on
well-formed values. -/
theorem jsonParse_stringify (v : JsonValue) (h : ValOK v) :
    jsonParse (stringifyVal v) = some v := by
  have hb := bound_le_len v h
  have h1 := (parse_stringify (2 * (stringifyVal v).length + 2)).1 v [] h rfl (by omega)
  rw [List.append_nil] at h1
  rw [jsonParse, h1]
  simp [skipWs]

/-- Encoded posts are well formed. -/
theorem encodePost_OK (p : Post) : ValOK (encodePost p) := by
  simp [encodePost, ValOK, FieldsOK]

/-- Encoded post lists are well formed. -/
theorem encodeList_OK (ps : List Post) : ListOK (encodeList ps) := by
  induction ps with
  | nil => simp [encodeList, ListOK]
  | cons p ps ih => simp [encodeList, ListOK]; exact ⟨encodePost_OK p, ih⟩

/-- Encoded collections are well formed. -/
theorem encodePosts_OK (ps : List Post) : ValOK (encodePosts ps) := by
  simp [encodePosts, ValOK]
  exact encodeList_OK ps

/-- The canonical integer literal denotes its integer. -/
theorem toInt?_ofInt (i : Int) : (JNum.ofInt i).toInt? = some i := by
  by_cases hi : i < 0
  · simp [JNum.ofInt, JNum.toInt?, digitsVal_natToChars, hi]
    rw [abs_of_neg hi, neg_neg]
  · have h1 : (i.natAbs : Int) = i := by omega
    simp [JNum.ofInt, JNum.toInt?, digitsVal_natToChars, hi, h1]

/-- Decoding inverts encoding on one post. -/
theorem decodePost_encodePost (p : Post) : decodePost (encodePost p) = some p := by
  simp [encodePost, decodePost, toInt?_ofInt]

/-- Decoding inverts encoding on a list of posts. -/
theorem decodeList_encodeList (ps : List Post) : decodeList (encodeList ps) = some ps := by
  induction ps with
  | nil => rfl
  | cons p ps ih => simp [encodeList, decodeList, decodePost_encodePost, ih]

/-- Decoding inverts encoding on a collection. -/
theorem decodePosts_encodePosts (ps : List Post) :
    decodePosts (encodePosts ps) = some ps := by
  simp [encodePosts, decodePosts, decodeList_encodeList]

/-- The write-then-read round trip of the store is the identity on post
collections. -/
theorem deserialize_serialize (ps : List Post) :
    deserializePosts (serializePosts ps) = some ps := by
  rw [deserializePosts, serializePosts]
  have hdata : (String.mk (stringifyVal (encodePosts ps))).data
      = stringifyVal (encodePosts ps) := rfl
  rw [hdata, jsonParse_stringify _ (encodePosts_OK ps)]
  simp [decodePosts_encodePosts]

/-- `push` on an encoded collection encodes the appended list. -/
theorem appendElem_encodeList (l : List Post) (p : Post) :
    appendElem (encodeList l) (encodePost p) = encodeList (l ++ [p]) := by
  induction l with
  | nil => rfl
  | cons q l ih => simp [encodeList, appendElem, ih]

/-- One add-post mutation on a serialized store appends the post and
re-serializes. -/
theorem addPost_serialized (l : List Post) (p : Post) :
    addPostMutation (some (serializePosts l)) p
      = .ok (some (serializePosts (l ++ [p]))) := by
  have hparse : jsonParse (serializePosts l).data = some (encodePosts l) :=
    jsonParse_stringify _ (encodePosts_OK l)
  simp only [addPostMutation, hparse, encodePosts]
  rw [appendElem_encodeList]
  rfl

/-- A run of add-post mutations on a serialized store appends all the posts
and never fails. -/
theorem addAll_serialized (ps : List Post) : ∀ l : List Post,
    addAll (some (serializePosts l)) ps = .ok (some (serializePosts (l ++ ps))) := by
  induction ps with
  | nil => intro l; simp [addAll]
  | cons p ps ih =>
    intro l
    simp only [addAll, addPost_serialized l p, ih (l ++ [p])]
    simp

/-- The shape forced by a successful decode: the decoded value is not
`null`, and the JS id comparison agrees with integer equality on the
decoded post's id. -/
theorem decodePost_props (v : JsonValue) (p : Post) (i : Int)
    (h : decodePost v = some p) :
    (v = .null → False) ∧ jsIdEq v i = (p.id == i) := by
  cases v <;> try simp [decodePost.eq_def] at h
  case obj fs =>
  cases fs <;> try simp [decodePost.eq_def] at h
  case cons k1 v1 fs1 =>
  cases v1 <;> try simp [decodePost.eq_def] at h
  case num j =>
  cases fs1 <;> try simp [decodePost.eq_def] at h
  case cons k2 v2 fs2 =>
  cases v2 <;> try simp [decodePost.eq_def] at h
  case str t =>
  cases fs2 <;> try simp [decodePost.eq_def] at h
  case cons k3 v3 fs3 =>
  cases v3 <;> try simp [decodePost.eq_def] at h
  case str b =>
  cases fs3 <;> try simp [decodePost.eq_def] at h
  have hk1 : k1 = ['i', 'd'] := h.1.1
  have hk2 : k2 = ['t', 'i', 't', 'l', 'e'] := h.1.2.1
  have hk3 : k3 = ['b', 'o', 'd', 'y'] := h.1.2.2
  obtain ⟨iv, hj, hp⟩ := h.2
  subst hk1; subst hk2; subst hk3
  refine ⟨(fun hc => nomatch hc), ?_⟩
  have hfield : getFieldLast
      (.cons ['i', 'd'] (.num j)
        (.cons ['t', 'i', 't', 'l', 'e'] (.str t)
          (.cons ['b', 'o', 'd', 'y'] (.str b) .nil)))
      ['i', 'd'] = some (.num j) := rfl
  rw [jsIdEq, hfield]
  simp only [JNum.eqInt, hj]
  have hid : p.id = iv := by rw [← hp]
  rw [hid]

/-- On a decodable collection, `find` with an id that matches no decoded
post resolves to `undefined` (no error, no match). -/
theorem jsFind_decodeList : ∀ (xs : JsonList) (c : List Post) (i : Int),
    decodeList xs = some c → (∀ p ∈ c, p.id ≠ i) → jsFindById xs i = .ok none
  | .nil, c, i, _, _ => rfl
  | .cons v vs, c, i, hdec, hmiss => by
    rw [decodeList] at hdec
    cases hdp : decodePost v with
    | none => rw [hdp] at hdec; simp at hdec
    | some p =>
      rw [hdp] at hdec
      cases hdl : decodeList vs with
      | none => rw [hdl] at hdec; simp at hdec
      | some c' =>
        rw [hdl] at hdec
        simp only [Option.bind_eq_bind, Option.some_bind, Option.some_inj] at hdec
        subst hdec
        obtain ⟨hnn, hideq⟩ := decodePost_props v p i hdp
        have hmiss1 : p.id ≠ i := hmiss p (by simp)
        have hbeq : (p.id == i) = false := by simp [hmiss1]
        have hmiss' : ∀ q ∈ c', q.id ≠ i := fun q hq => hmiss q (by simp [hq])
        have htail := jsFind_decodeList vs c' i hdl hmiss'
        cases v
        case null => exact absurd rfl hnn
        all_goals
          rw [jsFindById, hideq, hbeq]
          simp only [Bool.false_eq_true, if_false]
          exact htail
          exact hnn

/-- C1: starting from an empty or absent store, every sequence of N
add-post operations succeeds and leaves a stored collection of length N:
each add reads the current collection (defaulting to empty if absent),
appends its post at the end, and writes the full collection back. -/
theorem claim_C1_add_length (ps : List Post) (st : Option String)
    (h : st = none ∨ st = some "[]") :
    ∃ st', addAll st ps = .ok st'
      ∧ ∃ c, deserializePosts (st'.getD "[]") = some c ∧ c.length = ps.length := by
  have hser : ∀ l : List Post, ∃ c, deserializePosts (serializePosts l) = some c
      ∧ c.length = l.length := fun l => ⟨l, deserialize_serialize l, rfl⟩
  rcases h with rfl | rfl
  · cases ps with
    | nil => exact ⟨none, rfl, [], rfl, rfl⟩
    | cons p ps =>
      have h1 : addPostMutation none p = .ok (some (serializePosts [p])) := rfl
      refine ⟨some (serializePosts ([p] ++ ps)), ?_, ?_⟩
      · simp only [addAll, h1, addAll_serialized ps [p]]
      · simpa using hser ([p] ++ ps)
  · have h0 : addAll (some (serializePosts [])) ps
        = .ok (some (serializePosts ([] ++ ps))) := addAll_serialized ps []
    refine ⟨some (serializePosts ps), ?_, by simpa using hser ps⟩
    simpa using h0

/-- C1 witness: two adds from an absent store leave a stored collection of
length two. -/
theorem claim_C1_witness :
    ∃ st', addAll none [⟨1, "a", "b"⟩, ⟨2, "c", "d"⟩] = .ok st'
      ∧ ∃ c, deserializePosts (st'.getD "[]") = some c ∧ c.length = 2 :=
  claim_C1_add_length [⟨1, "a", "b"⟩, ⟨2, "c", "d"⟩] none (Or.inl rfl)

/-- C2: after every successful add-post mutation, the cached "all posts"
entry is the previously cached list (empty if none was cached) with the new
post appended, and this update is computed from the cached value alone:
any two stores on which the mutation succeeds produce the same updated
entry. -/
theorem claim_C2_optimistic (st : Option String) (cache : QueryCache) (p : Post)
    (st' : Option String) (cache' : QueryCache)
    (h : mutateAdd st cache p = .ok (st', cache')) :
    cache'.posts = some (cache.posts.getD [] ++ [p])
      ∧ ∀ st2 st2' cache2', mutateAdd st2 cache p = .ok (st2', cache2') →
          cache2'.posts = cache'.posts := by
  cases ha : addPostMutation st p with
  | error e => simp [mutateAdd, ha] at h
  | ok s2 =>
    simp only [mutateAdd, ha, Except.ok.injEq, Prod.mk.injEq] at h
    obtain ⟨rfl, rfl⟩ := h
    refine ⟨rfl, ?_⟩
    intro st2 st2' cache2' h2
    cases hb : addPostMutation st2 p with
    | error e => simp [mutateAdd, hb] at h2
    | ok s3 =>
      simp only [mutateAdd, hb, Except.ok.injEq, Prod.mk.injEq] at h2
      obtain ⟨rfl, rfl⟩ := h2
      rfl

/-- C2 witness: one successful add from the empty store appends to the
empty cached list, and the updated entry does not depend on the store. -/
theorem claim_C2_witness :
    (onSuccessUpdate ⟨none, fun _ => none⟩ ⟨1, "a", "b"⟩).posts
        = some ((⟨none, fun _ => none⟩ : QueryCache).posts.getD [] ++ [⟨1, "a", "b"⟩])
      ∧ ∀ st2 st2' cache2',
          mutateAdd st2 ⟨none, fun _ => none⟩ ⟨1, "a", "b"⟩ = .ok (st2', cache2') →
          cache2'.posts = (onSuccessUpdate ⟨none, fun _ => none⟩ ⟨1, "a", "b"⟩).posts :=
  claim_C2_optimistic (some "[]") ⟨none, fun _ => none⟩ ⟨1, "a", "b"⟩
    (some (serializePosts [⟨1, "a", "b"⟩]))
    (onSuccessUpdate ⟨none, fun _ => none⟩ ⟨1, "a", "b"⟩) rfl

/-- C3: when the store is absent, List Posts returns the empty collection
and initializes the store to the serialized empty collection `"[]"`, which
deserializes to the empty list. -/
theorem claim_C3_first_read :
    postsQueryFn none = (.ok (.arr .nil), some "[]")
      ∧ deserializePosts "[]" = some [] :=
  ⟨rfl, rfl⟩

/-- C4: on every stored collection of posts, Get Post By Id with an id
matching no record resolves with success and an undefined result — not an
error — and leaves the store unchanged. -/
theorem claim_C4_not_found (s : String) (c : List Post) (i : Int)
    (hdec : deserializePosts s = some c) (hmiss : ∀ p ∈ c, p.id ≠ i) :
    postQueryFn i (some s) = (.ok none, some s) := by
  rw [deserializePosts] at hdec
  cases hp : jsonParse s.data with
  | none => rw [hp] at hdec; simp at hdec
  | some v =>
    rw [hp] at hdec
    simp only [Option.bind_eq_bind, Option.some_bind] at hdec
    have hs : ¬(s = "") := by
      intro he; subst he
      rw [show jsonParse ("" : String).data = none from rfl] at hp
      exact Option.noConfusion hp
    cases v <;> try simp [decodePosts] at hdec
    case arr xs =>
    simp only [postQueryFn, hs, hp, jsFind_decodeList xs c i hdec hmiss, if_false]

/-- C4 witness: id 2 is absent from the stored singleton collection with
id 1, and the read resolves with success and no value. -/
theorem claim_C4_witness :
    postQueryFn 2 (some (serializePosts [⟨1, "a", "b"⟩]))
      = (.ok none, some (serializePosts [⟨1, "a", "b"⟩])) :=
  claim_C4_not_found (serializePosts [⟨1, "a", "b"⟩]) [⟨1, "a", "b"⟩] 2 rfl (by decide)

/-- C5 counterexample: the stored text of an empty object is not a valid
serialized collection, yet List Posts resolves with success (returning the
parsed object), contradicting the claim that it never resolves with
success on such content. -/
theorem claim_C5_counterexample :
    deserializePosts "\x7b\x7d" = none
      ∧ postsQueryFn (some "\x7b\x7d") = (.ok (.obj .nil), some "\x7b\x7d") :=
  ⟨rfl, rfl⟩

/-- C5 (amended): if the stored content is non-empty and not parseable as
JSON, List Posts fails with the parse error as its error state, whose
message is non-empty.  (Valid JSON that is not a post collection resolves
successfully, and empty content takes the absent-store path.) -/
theorem claim_C5_parse_error (s : String) (hne : s ≠ "")
    (hbad : jsonParse s.data = none) :
    postsQueryFn (some s) = (.error parseErrorMsg, some s) ∧ parseErrorMsg ≠ "" := by
  refine ⟨?_, by decide⟩
  simp only [postsQueryFn, hne, hbad, if_false]

/-- C5 witness: a store holding plain text fails with the non-empty parse
error message. -/
theorem claim_C5_witness :
    postsQueryFn (some "oops") = (.error parseErrorMsg, some "oops")
      ∧ parseErrorMsg ≠ "" :=
  claim_C5_parse_error "oops" (by decide) rfl

/-- C6: for every id, Get Post By Id invoked with the store key absent
fails with the explicit error "No posts yet" (a non-empty message) and
does not initialize or otherwise change the store. -/
theorem claim_C6_absent_store (i : Int) :
    postQueryFn i none = (.error "No posts yet", none)
      ∧ ("No posts yet" : String) ≠ "" :=
  ⟨rfl, by decide⟩

/-- C7: the single-post read is disabled exactly when the id is falsy:
id 0 disables the fetch and every non-zero id, including the sentinel -1,
leaves it enabled. -/
theorem claim_C7_enabled (i : Int) :
    (usePostEnabled i = false ↔ i = 0)
      ∧ usePostEnabled 0 = false ∧ usePostEnabled (-1) = true := by
  refine ⟨?_, rfl, rfl⟩
  simp [usePostEnabled]

/-- C8: no add-post mutation modifies any "post by id" cache entry: a
successful mutation together with its optimistic update leaves every
`["post", id]` entry exactly as it was. -/
theorem claim_C8_frame (st : Option String) (cache : QueryCache) (p : Post)
    (st' : Option String) (cache' : QueryCache)
    (h : mutateAdd st cache p = .ok (st', cache')) (i : Int) :
    cache'.postById i = cache.postById i := by
  cases ha : addPostMutation st p with
  | error e => simp [mutateAdd, ha] at h
  | ok s2 =>
    simp only [mutateAdd, ha, Except.ok.injEq, Prod.mk.injEq] at h
    obtain ⟨rfl, rfl⟩ := h
    rfl

/-- C8 witness: one successful add leaves the (empty) entry for id 5
untouched. -/
theorem claim_C8_witness :
    (onSuccessUpdate ⟨none, fun _ => none⟩ ⟨1, "a", "b"⟩).postById 5
      = (⟨none, fun _ => none⟩ : QueryCache).postById 5 :=
  claim_C8_frame (some "[]") ⟨none, fun _ => none⟩ ⟨1, "a", "b"⟩
    (some (serializePosts [⟨1, "a", "b"⟩]))
    (onSuccessUpdate ⟨none, fun _ => none⟩ ⟨1, "a", "b"⟩) rfl 5

/-- C9: serializing any collection of posts and deserializing the result
yields the original sequence of posts: the store's write-then-read round
trip is the identity on post collections. -/
theorem claim_C9_roundtrip (ps : List Post) :
    deserializePosts (serializePosts ps) = some ps :=
  deserialize_serialize ps

/-- C10: each press of the add button draws two independent random numbers:
the first appears in the new post's title "hello n" and the second becomes
the post's id, so the title generally does not contain the post's own id —
witnessed by in-range draws 1 and 2, whose title "hello 1" does not contain
the id string "2". -/
theorem claim_C10_two_draws (r1 r2 : Nat) :
    (makeNewPost r1 r2).id = (r2 : Int)
      ∧ (makeNewPost r1 r2).title = String.mk (['h', 'e', 'l', 'l', 'o', ' '] ++ natToChars r1)
      ∧ (makeNewPost r1 r2).body = "yoo"
      ∧ ∃ a b : Nat, a < 100000 ∧ b < 100000
          ∧ containsSub (makeNewPost a b).title.data (natToChars b) = false :=
  ⟨rfl, rfl, rfl, 1, 2, by decide, by decide, rfl⟩
